import Mathlib

/-!
Verification of the Hacker News `/newest` ordering checker.

The development embeds the core logic of the repository (age-text parsing,
sequence validation, deduplicating accumulation across pages, and the run
orchestration of the main routine) as executable Lean definitions, and proves
the specification claims about them.

Conventions:
* JavaScript strings are modelled as `String` / `List Char`.
* `parseAgeToSeconds` returning JS `null` is modelled as `Option.none`.
* The mutable `collected` / `seen` pair is modelled as an explicit state
  (`AccState`) threaded through recursion.
-/

/-! ### Characters: JS `\s`, `\d`, and ASCII case folding

`wsVals` lists the code points matched by the JavaScript `\s` class and
removed by `String.prototype.trim` (WhiteSpace ∪ LineTerminator).
-/

def wsVals : List Nat :=
  [9, 10, 11, 12, 13, 32, 0xA0, 0x1680,
   0x2000, 0x2001, 0x2002, 0x2003, 0x2004, 0x2005, 0x2006, 0x2007,
   0x2008, 0x2009, 0x200A, 0x2028, 0x2029, 0x202F, 0x205F, 0x3000, 0xFEFF]

def isWs (c : Char) : Bool := decide (c.toNat ∈ wsVals)

/-- JS `\d`: the ASCII digits `0`–`9`. -/
def isDigitChar (c : Char) : Bool := decide (48 ≤ c.toNat ∧ c.toNat ≤ 57)

/-- ASCII lower-casing, as performed both by the `/i` regex flag (on the
ASCII pattern letters of the age regex) and by `toLowerCase()` on the
matched ASCII unit word. -/
def lowAscii (c : Char) : Char :=
  if 65 ≤ c.toNat ∧ c.toNat ≤ 90 then Char.ofNat (c.toNat + 32) else c

/-- `String.prototype.trim`: strip leading and trailing JS whitespace. -/
def trimWs (cs : List Char) : List Char :=
  ((cs.dropWhile isWs).reverse.dropWhile isWs).reverse

/-- Exact decimal value of a (non-empty) ASCII digit string.  The source's
`Number(m[1])` computes this value *rounded to the nearest IEEE-754
double* (see `roundDouble` below); the exact value is kept separate so the
rounding is explicit. -/
def digitsToNat (ds : List Char) : Nat :=
  ds.foldl (fun a c => a * 10 + (c.toNat - 48)) 0

/-! ### The age parser (`parseAgeToSeconds`)

The source matches `^(\d+)\s+(minute|minutes|hour|hours|day|days)\s+ago$`
with the `/i` flag against the trimmed input, then converts the unit:
minutes ×60, hours ×3600, days ×86400.
-/

inductive AgeUnit where
  | minutes
  | hours
  | days
deriving DecidableEq

def unitSeconds : AgeUnit → Nat
  | .minutes => 60
  | .hours => 3600
  | .days => 86400

/-- The two spellings the regex accepts for each unit. -/
def unitWords : AgeUnit → List (List Char)
  | .minutes => ["minute".data, "minutes".data]
  | .hours => ["hour".data, "hours".data]
  | .days => ["day".data, "days".data]

/-- Strip a lowercase ASCII word `w` from the front of `cs`,
case-insensitively; return the rest on success. -/
def stripCI : List Char → List Char → Option (List Char)
  | [], cs => some cs
  | _ :: _, [] => none
  | a :: w, c :: cs => if lowAscii c = a then stripCI w cs else none

/-- Match one of the six unit alternatives at the front of `cs`.
Longer spellings are tried first; since a shorter spelling must be followed
by whitespace (never by the letter `s`), this is equivalent to the regex's
left-to-right alternation with backtracking. -/
def matchUnit (cs : List Char) : Option (AgeUnit × List Char) :=
  match stripCI "minutes".data cs with
  | some r => some (.minutes, r)
  | none =>
    match stripCI "minute".data cs with
    | some r => some (.minutes, r)
    | none =>
      match stripCI "hours".data cs with
      | some r => some (.hours, r)
      | none =>
        match stripCI "hour".data cs with
        | some r => some (.hours, r)
        | none =>
          match stripCI "days".data cs with
          | some r => some (.days, r)
          | none =>
            match stripCI "day".data cs with
            | some r => some (.days, r)
            | none => none

/-- The final `ago$` of the regex: the remainder must be exactly the three
letters `a` `g` `o` up to ASCII case. -/
def matchesAgo (cs : List Char) : Bool :=
  match cs with
  | [c1, c2, c3] => lowAscii c1 = 'a' ∧ lowAscii c2 = 'g' ∧ lowAscii c3 = 'o'
  | _ => false

/-- The regex match plus unit conversion, on an already-trimmed character
list: `^(\d+)\s+(minute|minutes|hour|hours|day|days)\s+ago$` with `/i`. -/
def parseCore (cs : List Char) : Option Nat :=
  let ds := cs.takeWhile isDigitChar
  let r1 := cs.dropWhile isDigitChar
  if ds.isEmpty then none else
  let w1 := r1.takeWhile isWs
  let r2 := r1.dropWhile isWs
  if w1.isEmpty then none else
  match matchUnit r2 with
  | none => none
  | some (u, r3) =>
    let w2 := r3.takeWhile isWs
    let r4 := r3.dropWhile isWs
    if w2.isEmpty then none else
    if matchesAgo r4 then some (digitsToNat ds * unitSeconds u) else none

/-- `parseAgeToSeconds` from the source, with idealized (exact, unbounded)
integer arithmetic for `Number(m[1])` and the unit multiplication; `none`
models the JS `null` result.  This value semantics agrees with the
program's IEEE-754 double arithmetic exactly when the product stays within
the double-exact integer range (≤ 2^53); the double-faithful variant is
`parseAgeToSecondsJs` below.  Which strings match (versus return `null`)
is unaffected by the idealization. -/
def parseAgeToSeconds (s : String) : Option Nat :=
  parseCore (trimWs s.data)

/-! ### Double-faithful number semantics

The source computes `Number(m[1])` and then `n * 60`, `n * 60 * 60`, or
`n * 24 * 60 * 60` in IEEE-754 double arithmetic.  Every value in this
pipeline is a non-negative integer-valued double or `Infinity` (rounding a
non-negative integer to a double yields an integer, and so does rounding a
product of such integers), so doubles are modelled as `JsNum`: an exact
non-negative integer or infinity. -/

inductive JsNum where
  | finite (x : Nat)
  | infinity
deriving DecidableEq

/-- Fuel-driven base-2 logarithm (structural recursion on the fuel so that
its applications reduce in the kernel); `log2Fuel x f` is `⌊log₂ x⌋` for
`2 ≤ x < 2 ^ f`. -/
def log2Fuel : Nat → Nat → Nat
  | _, 0 => 0
  | n, fuel + 1 => if n ≤ 1 then 0 else log2Fuel (n / 2) fuel + 1

/-- Round a non-negative integer to the nearest IEEE-754 double
(round-to-nearest, ties-to-even), overflowing to `Infinity`.  Integers up
to `2 ^ 53` are exactly representable; larger integers are rounded to the
nearest multiple of the unit in the last place `2 ^ e` where
`2 ^ 52 ≤ x / 2 ^ e < 2 ^ 53`; a result of `2 ^ 1024` or more overflows.
This models both `Number(...)` on a digit string and the rounding step of
a double multiplication. -/
def roundDouble (x : Nat) : JsNum :=
  if x ≤ 2 ^ 53 then .finite x
  else if 2 ^ 1024 ≤ x then .infinity
  else
    let e := log2Fuel x 1024 - 52
    let p := 2 ^ e
    let q := x / p
    let r := x % p
    let rounded :=
      if 2 * r < p then q * p
      else if p < 2 * r then (q + 1) * p
      else if q % 2 = 0 then q * p else (q + 1) * p
    if rounded < 2 ^ 1024 then .finite rounded else .infinity

/-- Double multiplication by a positive integer constant (the source only
multiplies by 60 and 24): multiply exactly, then round.  `Infinity` times
a positive constant stays `Infinity`. -/
def jsMul : JsNum → Nat → JsNum
  | .finite a, b => roundDouble (a * b)
  | .infinity, _ => .infinity

/-- The unit conversion chains of the source, with the source's
association: `n * 60`, `n * 60 * 60`, `n * 24 * 60 * 60` — each `*` a
double multiplication. -/
def jsUnitValue (u : AgeUnit) (n : JsNum) : JsNum :=
  match u with
  | .minutes => jsMul n 60
  | .hours => jsMul (jsMul n 60) 60
  | .days => jsMul (jsMul (jsMul n 24) 60) 60

/-- `parseAgeToSeconds` with double-faithful value semantics: the same
trim/regex control flow as `parseCore`, but `Number(m[1])` rounds the
digit-string value to a double and the unit conversion multiplies in
double arithmetic. -/
def parseCoreJs (cs : List Char) : Option JsNum :=
  let ds := cs.takeWhile isDigitChar
  let r1 := cs.dropWhile isDigitChar
  if ds.isEmpty then none else
  let w1 := r1.takeWhile isWs
  let r2 := r1.dropWhile isWs
  if w1.isEmpty then none else
  match matchUnit r2 with
  | none => none
  | some (u, r3) =>
    let w2 := r3.takeWhile isWs
    let r4 := r3.dropWhile isWs
    if w2.isEmpty then none else
    if matchesAgo r4 then some (jsUnitValue u (roundDouble (digitsToNat ds))) else none

def parseAgeToSecondsJs (s : String) : Option JsNum :=
  parseCoreJs (trimWs s.data)

/-! ### The recognized grammar, following the spec's words

`specGrammarL cs n u` says `cs` is: an integer count (digit string of value
`n`), one or more whitespace, a unit word for `u` (case-insensitive), one or
more whitespace, then the literal `ago` (case-insensitive).  This is the
spec-side description of the recognized pattern, to be compared with the
source-side `parseAgeToSeconds`. -/
def specGrammarL (cs : List Char) (n : Nat) (u : AgeUnit) : Prop :=
  ∃ ds w1 uw w2 ag : List Char,
    cs = ds ++ (w1 ++ (uw ++ (w2 ++ ag))) ∧
    ds ≠ [] ∧ (∀ c ∈ ds, isDigitChar c = true) ∧ digitsToNat ds = n ∧
    w1 ≠ [] ∧ (∀ c ∈ w1, isWs c = true) ∧
    (∃ w ∈ unitWords u, uw.map lowAscii = w) ∧
    w2 ≠ [] ∧ (∀ c ∈ w2, isWs c = true) ∧
    ag.map lowAscii = "ago".data

def specGrammar (s : String) (n : Nat) (u : AgeUnit) : Prop :=
  specGrammarL s.data n u

/-! ### Items and the sequence validator -/

structure RawRecord where
  id : String
  title : String
  age : String
deriving DecidableEq

structure Item where
  id : String
  title : String
  age : String
  ageSeconds : Option Nat
deriving DecidableEq

/-- The object pushed by the main loop: the record plus its parsed age. -/
def mkItem (r : RawRecord) : Item :=
  ⟨r.id, r.title, r.age, parseAgeToSeconds r.age⟩

/-- The violation object returned by `validateSortedNewestToOldest`.
`index` is the source's `index` field: the 0-based index of the later
(`curr`) item of the failing pair.  The human-readable message reports
`position ${i + 1}` — see `Violation.position`. -/
structure Violation where
  kind : String
  index : Nat
  prev : Item
  curr : Item
deriving DecidableEq

/-- The 1-based position reported in the violation message. -/
def Violation.position (v : Violation) : Nat := v.index + 1

inductive Verdict where
  | ok
  | viol (v : Violation)
deriving DecidableEq

/-- The loop body of `validateSortedNewestToOldest`, walking curr over the
tail with `i` the 0-based index of `curr` in the original list. -/
def validateGo (prev : Item) : List Item → Nat → Verdict
  | [], _ => .ok
  | curr :: rest, i =>
    match prev.ageSeconds, curr.ageSeconds with
    | some p, some c =>
      if c < p then .viol ⟨"SORT_VIOLATION", i, prev, curr⟩
      else validateGo curr rest (i + 1)
    | _, _ => .viol ⟨"PARSE_ERROR", i, prev, curr⟩

/-- `validateSortedNewestToOldest`: walk adjacent pairs from index 1;
a missing `ageSeconds` on either side of a pair is a `PARSE_ERROR`,
a decrease in age is a `SORT_VIOLATION`; otherwise `ok`. -/
def validateSortedNewestToOldest : List Item → Verdict
  | [] => .ok
  | first :: rest => validateGo first rest 1

/-- An adjacent pair that the validator passes over: both ages parsed and
non-decreasing. -/
def pairOkB (a b : Item) : Bool :=
  match a.ageSeconds, b.ageSeconds with
  | some p, some c => decide (p ≤ c)
  | _, _ => false

/-! ### The deduplicating accumulator

The main loop's `collected` array and `seen` set, and the per-page record
loop:

```
for (const it of pageItems) {
  if (!it.id || seen.has(it.id)) continue;
  seen.add(it.id);
  collected.push({ ...it, ageSeconds: parseAgeToSeconds(it.age) });
  if (collected.length === COUNT) break;
}
```
-/

structure AccState where
  collected : List Item
  seen : List String
deriving DecidableEq

/-- One iteration sequence of the per-page `for` loop, `N` the target
count (`COUNT`).  The `break` on reaching `N` returns the state with the
rest of the batch dropped. -/
def acceptGo (N : Nat) (s : AccState) : List RawRecord → AccState
  | [] => s
  | r :: rs =>
    if r.id = "" ∨ r.id ∈ s.seen then acceptGo N s rs
    else
      let s' : AccState := ⟨s.collected ++ [mkItem r], s.seen ++ [r.id]⟩
      if s'.collected.length = N then s' else acceptGo N s' rs

def acceptBatch (N : Nat) (s : AccState) (batch : List RawRecord) : AccState :=
  acceptGo N s batch

/-- The `while (collected.length < COUNT)` structure over the successive
page batches: each batch is fed to the accumulator only while the target
has not been reached. -/
def collectPages (N : Nat) (s : AccState) : List (List RawRecord) → AccState
  | [] => s
  | b :: bs =>
    if s.collected.length < N then collectPages N (acceptBatch N s b) bs else s

/-- First-occurrence filtering of a raw-record stream: drop records whose
identifier is empty or was already seen.  This formalizes the claims'
phrase "first occurrence wins"; the accumulator is proved equal to a
truncation of this stream. -/
def firstUnique (seen : List String) : List RawRecord → List RawRecord
  | [] => []
  | r :: rs =>
    if r.id = "" ∨ r.id ∈ seen then firstUnique seen rs
    else r :: firstUnique (seen ++ [r.id]) rs

/-! ### The run orchestration (main IIFE)

The crawl loop is modelled against a scripted pagination driver: the list
`pages` holds the successive page contents, and a "More" link exists
exactly when a further page remains.  A missing "More" link makes the
`more.waitFor` call time out, which the source surfaces as a thrown error
caught by the main `catch` block.
-/

inductive RunError where
  /-- `page.waitForSelector('tr.athing')` timed out (no page content). -/
  | fetchTimeout
  /-- `more.waitFor` timed out: no next-page control was available. -/
  | noMoreLink
  /-- The `Expected EXACTLY N items` guard (unreachable in the loop). -/
  | wrongCount (got : Nat)
  /-- `validateSortedNewestToOldest` returned a violation; its message is
  thrown. -/
  | validationFailed (v : Violation)
deriving DecidableEq

/-- The `while` loop of the main routine: read the current page, feed it to
the accumulator, and if the target is still not reached navigate to the
next page (failing like the source's `more.waitFor` timeout when none
exists).  Returns the error if any, the final accumulator state, and the
`pagesVisited` counter (which starts at 1 after the initial `goto` and is
incremented on each successful navigation). -/
def crawlGo (N : Nat) : AccState → List (List RawRecord) → Nat →
    Option RunError × AccState × Nat
  | s, [], v => (some .fetchTimeout, s, v)
  | s, cur :: rest, v =>
    let s' := acceptBatch N s cur
    if s'.collected.length < N then
      match rest with
      | [] => (some .noMoreLink, s', v)
      | _ :: _ => crawlGo N s' rest (v + 1)
    else (none, s', v)

/-- The crawl phase of the main routine for target count `N` over scripted
pages.  When `N = 0` the `while` guard is false at entry and no page is
read. -/
def crawl (N : Nat) (pages : List (List RawRecord)) :
    Option RunError × AccState × Nat :=
  if 0 < N then crawlGo N ⟨[], []⟩ pages 1 else (none, ⟨[], []⟩, 1)

/-- The run outcome as the source's summary and process-exit contract
record it: `status` is the `status` variable written to the summary,
`detail` the caught error (if any), `validation` the `validationResult`
variable, `pagesVisited` the counter, `exitCode` the value of
`process.exitCode`. -/
structure RunResult where
  status : String
  detail : Option RunError
  validation : Option Verdict
  pagesVisited : Nat
  exitCode : Nat
deriving DecidableEq

/-- The main routine: crawl, check the exact count, validate, and map any
thrown error to the FAIL path of the `catch` block. -/
def runModel (N : Nat) (pages : List (List RawRecord)) : RunResult :=
  match crawl N pages with
  | (some e, _, v) => ⟨"FAIL", some e, none, v, 1⟩
  | (none, s, v) =>
    if s.collected.length ≠ N then
      ⟨"FAIL", some (.wrongCount s.collected.length), none, v, 1⟩
    else
      match validateSortedNewestToOldest s.collected with
      | .ok => ⟨"PASS", none, some .ok, v, 0⟩
      | .viol vio => ⟨"FAIL", some (.validationFailed vio), some (.viol vio), v, 1⟩

/-- The validation kind string recorded with a failed run, if any: the
source attaches a `kind` only through `validationResult`; failures caught
before validation carry no kind. -/
def failKind (r : RunResult) : Option String :=
  match r.validation with
  | some (.viol v) => some v.kind
  | _ => none

/-! ### The reporting epilogue

Lines of the main routine after validation: on the PASS path the source
sets `status = 'PASS'` and `process.exitCode = 0`, then — only when
`ARTIFACTS === 'always'` — awaits `writeArtifacts` with **no** catch, so a
throwing artifact write lands in the main `catch` block, which sets
`process.exitCode = 1` (the `status` variable keeps its value `'PASS'`).
On the FAIL path the artifact write is guarded with `.catch(() => {})`.
The `finally` block calls `writeSummary` unguarded: a throw there escapes
the async IIFE and the process exits non-zero regardless of
`process.exitCode`. -/

structure ReportEnv where
  artifactsMode : String
  artifactWriteFails : Bool
  summaryWriteFails : Bool
deriving DecidableEq

structure FinalState where
  status : String
  exitCode : Nat
deriving DecidableEq

def finishRun (validationOk : Bool) (env : ReportEnv) : FinalState :=
  let tryOutcome : FinalState :=
    if validationOk then
      if env.artifactsMode = "always" ∧ env.artifactWriteFails then
        ⟨"PASS", 1⟩
      else ⟨"PASS", 0⟩
    else ⟨"FAIL", 1⟩
  if env.summaryWriteFails then ⟨tryOutcome.status, 1⟩ else tryOutcome

/-! ## Lemmas about the validator -/

lemma pairOkB_eq_true_iff {a b : Item} :
    pairOkB a b = true ↔
      ∃ p c, a.ageSeconds = some p ∧ b.ageSeconds = some c ∧ p ≤ c := by
  cases ha : a.ageSeconds with
  | none => simp [pairOkB, ha]
  | some p =>
    cases hb : b.ageSeconds with
    | none => simp [pairOkB, ha, hb]
    | some c => simp [pairOkB, ha, hb]

lemma validateGo_ok_iff (l : List Item) : ∀ (x : Item) (i : Nat),
    validateGo x l i = .ok ↔
      List.Chain' (fun a b => pairOkB a b = true) (x :: l) := by
  induction l with
  | nil => intro x i; simp [validateGo]
  | cons y l ih =>
    intro x i
    rw [List.chain'_cons]
    cases ha : x.ageSeconds with
    | none => simp [validateGo, ha, pairOkB]
    | some p =>
      cases hb : y.ageSeconds with
      | none => simp [validateGo, ha, hb, pairOkB]
      | some c =>
        by_cases hlt : c < p
        · have hnle : ¬ p ≤ c := by omega
          simp [validateGo, ha, hb, hlt, pairOkB, hnle]
        · have hle : p ≤ c := by omega
          simp [validateGo, ha, hb, hlt, pairOkB, hle, ih]

lemma validate_eq_ok_iff (items : List Item) :
    validateSortedNewestToOldest items = .ok ↔
      List.Chain' (fun a b => pairOkB a b = true) items := by
  cases items with
  | nil => simp [validateSortedNewestToOldest]
  | cons x l =>
    simpa [validateSortedNewestToOldest] using validateGo_ok_iff l x 1

lemma chain'_pairOkB_of_le : ∀ l : List Item,
    (∀ it ∈ l, it.ageSeconds.isSome = true) →
    List.Chain' (fun a b => a.ageSeconds.getD 0 ≤ b.ageSeconds.getD 0) l →
    List.Chain' (fun a b => pairOkB a b = true) l := by
  intro l
  induction l with
  | nil => intro _ _; exact List.chain'_nil
  | cons x l ih =>
    intro hpres hch
    cases l with
    | nil => exact List.chain'_singleton x
    | cons y t =>
      rw [List.chain'_cons] at hch ⊢
      have hx := hpres x (by simp)
      have hy := hpres y (by simp)
      obtain ⟨p, hp⟩ := Option.isSome_iff_exists.mp hx
      obtain ⟨c, hc⟩ := Option.isSome_iff_exists.mp hy
      refine ⟨pairOkB_eq_true_iff.mpr ⟨p, c, hp, hc, ?_⟩, ?_⟩
      · have := hch.1
        simpa [hp, hc] using this
      · exact ih (fun it hit => hpres it (List.mem_cons_of_mem x hit)) hch.2

/-- While the chain of already-checked pairs passes, `validateGo` walks to
the end of that chain, accumulating the index. -/
lemma validateGo_chain (l : List Item) : ∀ (x : Item) (i : Nat) (l₂ : List Item),
    List.Chain' (fun a b => pairOkB a b = true) (x :: l) →
    validateGo x (l ++ l₂) i = validateGo (l.getLastD x) l₂ (i + l.length) := by
  induction l with
  | nil => intro x i l₂ _; simp [List.getLastD]
  | cons y l ih =>
    intro x i l₂ hch
    rw [List.chain'_cons] at hch
    obtain ⟨p, c, hp, hc, hle⟩ := pairOkB_eq_true_iff.mp hch.1
    have hstep : validateGo x ((y :: l) ++ l₂) i = validateGo y (l ++ l₂) (i + 1) := by
      have hnlt : ¬ c < p := by omega
      simp [validateGo, hp, hc, hnlt]
    rw [hstep, ih y (i + 1) l₂ hch.2, List.getLastD_cons]
    have harith : i + 1 + l.length = i + (y :: l).length := by
      simp [List.length_cons]; omega
    rw [harith]

lemma getLastD_append_singleton : ∀ (l : List α) (a d : α), (l ++ [a]).getLastD d = a := by
  intro l a d
  simp

/-! ## Claims C10, C3, C1, C2 -/

/-- **C10.** For every sequence of items of length zero or one, the
validator returns `Ok`, even when the single item's `ageSeconds` is
absent: the loop starts at index 1, so parse failures are only detected as
part of an adjacent pair. -/
theorem claim_C10_short_sequences_ok (items : List Item) (h : items.length ≤ 1) :
    validateSortedNewestToOldest items = .ok := by
  cases items with
  | nil => rfl
  | cons x l =>
    cases l with
    | nil => rfl
    | cons y t => simp [List.length_cons] at h

theorem claim_C10_witness :
    ([(⟨"i1", "t1", "zzz", none⟩ : Item)].length ≤ 1) ∧
      validateSortedNewestToOldest [⟨"i1", "t1", "zzz", none⟩] = .ok :=
  ⟨by decide, claim_C10_short_sequences_ok [⟨"i1", "t1", "zzz", none⟩] (by decide)⟩

/-- **C3.** The validator returns `Ok` exactly when no adjacent pair fails
(both ages parsed and non-decreasing, `pairOkB`); in particular, for every
sequence whose `ageSeconds` are all present and non-decreasing end-to-end
(ties allowed), it returns `Ok`. -/
theorem claim_C3_monotone_ok (items : List Item) :
    (validateSortedNewestToOldest items = .ok ↔
      List.Chain' (fun a b => pairOkB a b = true) items) ∧
    ((∀ it ∈ items, it.ageSeconds.isSome = true) →
      List.Chain' (fun a b => a.ageSeconds.getD 0 ≤ b.ageSeconds.getD 0) items →
      validateSortedNewestToOldest items = .ok) :=
  ⟨validate_eq_ok_iff items,
   fun hpres hch =>
     (validate_eq_ok_iff items).mpr (chain'_pairOkB_of_le items hpres hch)⟩

theorem claim_C3_witness :
    validateSortedNewestToOldest
      [⟨"i1", "t1", "1 minute ago", some 60⟩,
       ⟨"i2", "t2", "1 minute ago", some 60⟩,
       ⟨"i3", "t3", "2 minutes ago", some 120⟩] = .ok :=
  (claim_C3_monotone_ok _).2 (by decide)
    (by simp [List.chain'_cons, List.chain'_singleton])

/-- **C1.** For a sequence whose ages are all present, the validator
reports the first (lowest-index) failing adjacent pair: if every pair up
through `a` is non-decreasing and the pair `(a, b)` decreases, the result
is a `SORT_VIOLATION` whose `index` is the 0-based index of `b`
(`pre.length + 1`) — the reported 1-based `position` of the later item is
`index + 1 = pre.length + 2`.  Any later differing pair (inside `rest`) is
not reported. -/
theorem claim_C1_first_violation (pre : List Item) (a b : Item) (rest : List Item)
    (hpres : ∀ it ∈ pre ++ a :: b :: rest, it.ageSeconds.isSome = true)
    (hchain : List.Chain' (fun x y => x.ageSeconds.getD 0 ≤ y.ageSeconds.getD 0) (pre ++ [a]))
    (hviol : b.ageSeconds.getD 0 < a.ageSeconds.getD 0) :
    validateSortedNewestToOldest (pre ++ a :: b :: rest) =
      .viol ⟨"SORT_VIOLATION", pre.length + 1, a, b⟩ ∧
    (Violation.mk "SORT_VIOLATION" (pre.length + 1) a b).position = pre.length + 2 := by
  have hpa : a.ageSeconds.isSome = true := hpres a (by simp)
  have hpb : b.ageSeconds.isSome = true := hpres b (by simp)
  obtain ⟨p, hp⟩ := Option.isSome_iff_exists.mp hpa
  obtain ⟨c, hc⟩ := Option.isSome_iff_exists.mp hpb
  have hlt : c < p := by simpa [hp, hc] using hviol
  refine ⟨?_, rfl⟩
  cases pre with
  | nil =>
    simp [validateSortedNewestToOldest, validateGo, hp, hc, hlt]
  | cons x pre' =>
    have hchain' : List.Chain' (fun u v => pairOkB u v = true) (x :: (pre' ++ [a])) := by
      refine chain'_pairOkB_of_le _ ?_ ?_
      · intro it hit
        refine hpres it ?_
        simp only [List.mem_cons, List.mem_append] at hit ⊢
        tauto
      · simpa using hchain
    have hsplit : (x :: pre') ++ a :: b :: rest = x :: ((pre' ++ [a]) ++ (b :: rest)) := by
      simp
    rw [hsplit]
    show validateGo x ((pre' ++ [a]) ++ (b :: rest)) 1 = _
    rw [validateGo_chain (pre' ++ [a]) x 1 (b :: rest) hchain',
      getLastD_append_singleton]
    have : validateGo a (b :: rest) (1 + (pre' ++ [a]).length) =
        .viol ⟨"SORT_VIOLATION", 1 + (pre' ++ [a]).length, a, b⟩ := by
      simp [validateGo, hp, hc, hlt]
    rw [this]
    have : 1 + (pre' ++ [a]).length = (x :: pre').length + 1 := by
      simp [List.length_append, List.length_cons]; omega
    rw [this]

theorem claim_C1_witness :
    validateSortedNewestToOldest
      [⟨"i1", "t1", "1 minute ago", some 60⟩,
       ⟨"i2", "t2", "2 minutes ago", some 120⟩,
       ⟨"i3", "t3", "90 seconds", some 90⟩,
       ⟨"i4", "t4", "200 seconds", some 200⟩] =
      .viol ⟨"SORT_VIOLATION", 2,
        ⟨"i2", "t2", "2 minutes ago", some 120⟩,
        ⟨"i3", "t3", "90 seconds", some 90⟩⟩ := by
  have h := claim_C1_first_violation
    [⟨"i1", "t1", "1 minute ago", some 60⟩]
    ⟨"i2", "t2", "2 minutes ago", some 120⟩
    ⟨"i3", "t3", "90 seconds", some 90⟩
    [⟨"i4", "t4", "200 seconds", some 200⟩]
    (by decide)
    (by simp [List.chain'_cons, List.chain'_singleton])
    (by decide)
  exact h.1

/-- **C2.** For an adjacent pair actually reached by the validator (all
earlier pairs pass), a missing `ageSeconds` on either side yields a
`PARSE_ERROR` violation for that pair, with `index` the 0-based index of
the later item (reported position `index + 1`), regardless of any ordering
relation. -/
theorem claim_C2_parse_precedence (pre : List Item) (a b : Item) (rest : List Item)
    (hchain : List.Chain' (fun x y => pairOkB x y = true) (pre ++ [a]))
    (hnone : a.ageSeconds = none ∨ b.ageSeconds = none) :
    validateSortedNewestToOldest (pre ++ a :: b :: rest) =
      .viol ⟨"PARSE_ERROR", pre.length + 1, a, b⟩ := by
  have hfinal : ∀ i, validateGo a (b :: rest) i = .viol ⟨"PARSE_ERROR", i, a, b⟩ := by
    intro i
    rcases hnone with h | h
    · simp [validateGo, h]
    · cases ha : a.ageSeconds with
      | none => simp [validateGo, ha]
      | some p => simp [validateGo, ha, h]
  cases pre with
  | nil => simpa [validateSortedNewestToOldest] using hfinal 1
  | cons x pre' =>
    have hsplit : (x :: pre') ++ a :: b :: rest = x :: ((pre' ++ [a]) ++ (b :: rest)) := by
      simp
    rw [hsplit]
    show validateGo x ((pre' ++ [a]) ++ (b :: rest)) 1 = _
    rw [validateGo_chain (pre' ++ [a]) x 1 (b :: rest) (by simpa using hchain),
      getLastD_append_singleton, hfinal]
    have : 1 + (pre' ++ [a]).length = (x :: pre').length + 1 := by
      simp [List.length_append, List.length_cons]; omega
    rw [this]

theorem claim_C2_witness :
    validateSortedNewestToOldest
      [⟨"i1", "t1", "1 minute ago", some 60⟩,
       ⟨"i2", "t2", "zzz", none⟩,
       ⟨"i3", "t3", "90 seconds", some 90⟩] =
      .viol ⟨"PARSE_ERROR", 1,
        ⟨"i1", "t1", "1 minute ago", some 60⟩,
        ⟨"i2", "t2", "zzz", none⟩⟩ :=
  claim_C2_parse_precedence []
    ⟨"i1", "t1", "1 minute ago", some 60⟩
    ⟨"i2", "t2", "zzz", none⟩
    [⟨"i3", "t3", "90 seconds", some 90⟩]
    (List.chain'_singleton _)
    (Or.inr rfl)

/-! ## Lemmas about the accumulator -/

lemma mkItem_id (r : RawRecord) : (mkItem r).id = r.id := rfl

/-- Characterization of the per-page loop: starting strictly below the
target, it appends the first-unique records of the batch, truncated to the
remaining room, updating `seen` in lock-step. -/
lemma acceptGo_spec (N : Nat) : ∀ (rs : List RawRecord) (s : AccState),
    s.collected.length < N →
    acceptGo N s rs =
      AccState.mk
        (s.collected ++ ((firstUnique s.seen rs).take (N - s.collected.length)).map mkItem)
        (s.seen ++ ((firstUnique s.seen rs).take (N - s.collected.length)).map RawRecord.id) := by
  intro rs
  induction rs with
  | nil => intro s _; simp [acceptGo, firstUnique]
  | cons r rs ih =>
    intro s h
    by_cases hskip : r.id = "" ∨ r.id ∈ s.seen
    · rw [show acceptGo N s (r :: rs) = acceptGo N s rs by simp [acceptGo, hskip]]
      rw [ih s h]
      simp [firstUnique, hskip]
    · by_cases hfull : s.collected.length + 1 = N
      · have hstep : acceptGo N s (r :: rs) =
            AccState.mk (s.collected ++ [mkItem r]) (s.seen ++ [r.id]) := by
          simp [acceptGo, hskip, hfull]
        have hk0 : N - s.collected.length = 1 := by omega
        rw [hstep]
        simp [firstUnique, hskip, hk0]
      · have hlt : s.collected.length + 1 < N := by omega
        have hstep : acceptGo N s (r :: rs) =
            acceptGo N (AccState.mk (s.collected ++ [mkItem r]) (s.seen ++ [r.id])) rs := by
          simp [acceptGo, hskip, hfull]
        have hk : N - s.collected.length = (N - (s.collected.length + 1)) + 1 := by omega
        rw [hstep, ih _ (by simpa using hlt)]
        simp [firstUnique, hskip, hk, List.take_succ_cons]

lemma firstUnique_append : ∀ (xs : List RawRecord) (seen : List String) (ys : List RawRecord),
    firstUnique seen (xs ++ ys) =
      firstUnique seen xs ++
        firstUnique (seen ++ (firstUnique seen xs).map RawRecord.id) ys := by
  intro xs
  induction xs with
  | nil => intro seen ys; simp [firstUnique]
  | cons r xs ih =>
    intro seen ys
    by_cases hskip : r.id = "" ∨ r.id ∈ seen
    · simp [firstUnique, hskip, ih]
    · simp [firstUnique, hskip, ih, List.append_assoc]

lemma collectPages_of_full (N : Nat) (s : AccState)
    (h : ¬ s.collected.length < N) : ∀ bs, collectPages N s bs = s := by
  intro bs
  cases bs with
  | nil => rfl
  | cons b bs => simp [collectPages, h]

lemma collectPages_append (N : Nat) : ∀ (bs es : List (List RawRecord)) (s : AccState),
    collectPages N s (bs ++ es) = collectPages N (collectPages N s bs) es := by
  intro bs
  induction bs with
  | nil => intro es s; simp [collectPages]
  | cons b bs ih =>
    intro es s
    by_cases h : s.collected.length < N
    · simp [collectPages, h, ih]
    · simp [collectPages, h, collectPages_of_full N s h]

/-- Characterization of the whole crawl-side accumulation: the collected
sequence is the target-count truncation of the first-unique filtering of
the concatenated record stream. -/
lemma collectPages_spec (N : Nat) : ∀ (bs : List (List RawRecord)) (s : AccState),
    collectPages N s bs =
      AccState.mk
        (s.collected ++ ((firstUnique s.seen bs.flatten).take (N - s.collected.length)).map mkItem)
        (s.seen ++ ((firstUnique s.seen bs.flatten).take (N - s.collected.length)).map RawRecord.id) := by
  intro bs
  induction bs with
  | nil => intro s; simp [collectPages, firstUnique]
  | cons b bs ih =>
    intro s
    by_cases h : s.collected.length < N
    · have hstep : collectPages N s (b :: bs) = collectPages N (acceptBatch N s b) bs := by
        simp [collectPages, h]
      rw [hstep, acceptBatch, acceptGo_spec N b s h, ih]
      have hflat : (b :: bs).flatten = b ++ bs.flatten := rfl
      rw [hflat, firstUnique_append b s.seen bs.flatten]
      by_cases hcase : (firstUnique s.seen b).length ≤ N - s.collected.length
      · have htake : (firstUnique s.seen b).take (N - s.collected.length) =
            firstUnique s.seen b := List.take_of_length_le hcase
        rw [htake]
        rw [List.take_append_eq_append_take, List.take_of_length_le hcase]
        have harith : N - (s.collected ++ (firstUnique s.seen b).map mkItem).length =
            N - s.collected.length - (firstUnique s.seen b).length := by
          simp only [List.length_append, List.length_map]
          omega
        rw [harith]
        simp [List.map_append, List.append_assoc]
      · have hKF : ((firstUnique s.seen b).take (N - s.collected.length)).length =
            N - s.collected.length := by
          simp only [List.length_take]
          omega
        have hzero : N - (s.collected ++
            ((firstUnique s.seen b).take (N - s.collected.length)).map mkItem).length = 0 := by
          simp only [List.length_append, List.length_map, hKF]
          omega
        have hz2 : N - s.collected.length - (firstUnique s.seen b).length = 0 := by omega
        rw [List.take_append_eq_append_take, hz2, hzero]
        simp
    · rw [collectPages_of_full N s h]
      have hz : N - s.collected.length = 0 := by omega
      simp [hz]

lemma firstUnique_props : ∀ (l : List RawRecord) (seen : List String),
    ((firstUnique seen l).map RawRecord.id).Nodup ∧
      ∀ r ∈ firstUnique seen l, r.id ∉ seen ∧ r.id ≠ "" := by
  intro l
  induction l with
  | nil => intro seen; simp [firstUnique]
  | cons r l ih =>
    intro seen
    by_cases hskip : r.id = "" ∨ r.id ∈ seen
    · simpa [firstUnique, hskip] using ih seen
    · have hne : r.id ≠ "" := fun hc => hskip (Or.inl hc)
      have hnotin : r.id ∉ seen := fun hc => hskip (Or.inr hc)
      have hunfold : firstUnique seen (r :: l) = r :: firstUnique (seen ++ [r.id]) l := by
        simp [firstUnique, hskip]
      have ih' := ih (seen ++ [r.id])
      rw [hunfold]
      refine ⟨?_, ?_⟩
      · rw [List.map_cons, List.nodup_cons]
        refine ⟨?_, ih'.1⟩
        intro hmem
        obtain ⟨r', hr', hid⟩ := List.mem_map.mp hmem
        have := (ih'.2 r' hr').1
        simp [hid] at this
      · intro r' hr'
        rcases List.mem_cons.mp hr' with h | h
        · subst h; exact ⟨hnotin, hne⟩
        · have := ih'.2 r' h
          refine ⟨fun hmem => this.1 ?_, this.2⟩
          simp [hmem]

/-! ## Claims C6, C7 -/

/-- **C6.** Across any sequence of batches, the collected sequence is
exactly the target-truncated first-occurrence filtering of the
concatenated record stream: each identifier appears at most once (at the
position of its first occurrence — later occurrences in the same or later
batches are skipped), and records with an empty/missing identifier are
never collected. -/
theorem claim_C6_dedup_first_occurrence (N : Nat) (batches : List (List RawRecord)) :
    (collectPages N ⟨[], []⟩ batches).collected =
      ((firstUnique [] batches.flatten).take N).map mkItem ∧
    ((collectPages N ⟨[], []⟩ batches).collected.map Item.id).Nodup ∧
    ∀ it ∈ (collectPages N ⟨[], []⟩ batches).collected, it.id ≠ "" := by
  have hspec := collectPages_spec N batches ⟨[], []⟩
  have hc : (collectPages N ⟨[], []⟩ batches).collected =
      ((firstUnique [] batches.flatten).take N).map mkItem := by
    rw [hspec]; simp
  refine ⟨hc, ?_, ?_⟩
  · rw [hc]
    have hmapmap : (((firstUnique [] batches.flatten).take N).map mkItem).map Item.id =
        ((firstUnique [] batches.flatten).take N).map RawRecord.id := by
      rw [List.map_map]
      rfl
    rw [hmapmap]
    have hsub : List.Sublist (((firstUnique [] batches.flatten).take N).map RawRecord.id)
        ((firstUnique [] batches.flatten).map RawRecord.id) :=
      (List.take_sublist _ _).map _
    exact (firstUnique_props batches.flatten []).1.sublist hsub
  · intro it hit
    rw [hc] at hit
    obtain ⟨r, hr, hid⟩ := List.mem_map.mp hit
    have hrmem : r ∈ firstUnique [] batches.flatten :=
      (List.take_sublist _ _).subset hr
    have := (firstUnique_props batches.flatten []).2 r hrmem
    rw [← hid]
    simpa [mkItem_id] using this.2

theorem claim_C6_witness :
    (mkItem ⟨"a", "ta", "1 minute ago"⟩).id ≠ "" ∧
    ((collectPages 2 ⟨[], []⟩
        [[⟨"a", "ta", "1 minute ago"⟩],
         [⟨"a", "ta", "1 minute ago"⟩, ⟨"b", "tb", "2 minutes ago"⟩]]).collected.map
        Item.id).Nodup :=
  ⟨(claim_C6_dedup_first_occurrence 2
      [[⟨"a", "ta", "1 minute ago"⟩],
       [⟨"a", "ta", "1 minute ago"⟩, ⟨"b", "tb", "2 minutes ago"⟩]]).2.2
      (mkItem ⟨"a", "ta", "1 minute ago"⟩) (by decide),
   (claim_C6_dedup_first_occurrence 2
      [[⟨"a", "ta", "1 minute ago"⟩],
       [⟨"a", "ta", "1 minute ago"⟩, ⟨"b", "tb", "2 minutes ago"⟩]]).2.1⟩

/-- **C7.** The collected sequence never exceeds the target count `N`, and
once it has reached `N` further batches change nothing: the records beyond
the `N`-th collected item are dropped, not deferred. -/
theorem claim_C7_never_exceeds_target (N : Nat) (batches extra : List (List RawRecord)) :
    (collectPages N ⟨[], []⟩ batches).collected.length ≤ N ∧
    ((collectPages N ⟨[], []⟩ batches).collected.length = N →
      collectPages N ⟨[], []⟩ (batches ++ extra) = collectPages N ⟨[], []⟩ batches) := by
  constructor
  · rw [collectPages_spec]
    simp [List.length_take]
  · intro hfull
    rw [collectPages_append]
    exact collectPages_of_full N _ (by omega) extra

theorem claim_C7_witness :
    collectPages 1 ⟨[], []⟩
        ([[⟨"a", "ta", "1 minute ago"⟩, ⟨"b", "tb", "2 minutes ago"⟩]] ++
          [[⟨"c", "tc", "3 minutes ago"⟩]]) =
      collectPages 1 ⟨[], []⟩ [[⟨"a", "ta", "1 minute ago"⟩, ⟨"b", "tb", "2 minutes ago"⟩]] :=
  (claim_C7_never_exceeds_target 1
      [[⟨"a", "ta", "1 minute ago"⟩, ⟨"b", "tb", "2 minutes ago"⟩]]
      [[⟨"c", "tc", "3 minutes ago"⟩]]).2 (by decide)

/-! ## Lemmas about the crawl loop (claim C8) -/

/-- When the whole scripted feed holds fewer first-unique records than the
target, the crawl consumes every page and then fails waiting for the
missing next-page control. -/
lemma crawlGo_insufficient (N : Nat) : ∀ (pages : List (List RawRecord)) (s : AccState) (v : Nat),
    pages ≠ [] →
    s.collected.length < N →
    s.collected.length + (firstUnique s.seen pages.flatten).length < N →
    ∃ s', crawlGo N s pages v = (some RunError.noMoreLink, s', v + (pages.length - 1)) := by
  intro pages
  induction pages with
  | nil => intro s v hne _ _; exact absurd rfl hne
  | cons cur rest ih =>
    intro s v _ hlt hfew
    have hflat : (cur :: rest).flatten = cur ++ rest.flatten := rfl
    rw [hflat, firstUnique_append cur s.seen rest.flatten, List.length_append] at hfew
    have hcur_le : (firstUnique s.seen cur).length ≤ N - s.collected.length := by omega
    have hacc : acceptBatch N s cur =
        AccState.mk
          (s.collected ++ ((firstUnique s.seen cur).take (N - s.collected.length)).map mkItem)
          (s.seen ++ ((firstUnique s.seen cur).take (N - s.collected.length)).map RawRecord.id) := by
      rw [acceptBatch, acceptGo_spec N cur s hlt]
    rw [List.take_of_length_le hcur_le] at hacc
    have hlen' : (acceptBatch N s cur).collected.length =
        s.collected.length + (firstUnique s.seen cur).length := by
      rw [hacc]; simp
    have hlt' : (acceptBatch N s cur).collected.length < N := by omega
    cases rest with
    | nil =>
      refine ⟨acceptBatch N s cur, ?_⟩
      simp [crawlGo, hlt']
    | cons b bs =>
      have hseen' : (acceptBatch N s cur).seen =
          s.seen ++ (firstUnique s.seen cur).map RawRecord.id := by
        rw [hacc]
      have hfew' : (acceptBatch N s cur).collected.length +
          (firstUnique (acceptBatch N s cur).seen ((b :: bs).flatten)).length < N := by
        rw [hlen', hseen']
        omega
      obtain ⟨s', hs'⟩ := ih (acceptBatch N s cur) (v + 1) (by simp) hlt' hfew'
      refine ⟨s', ?_⟩
      have hstep : crawlGo N s (cur :: b :: bs) v =
          crawlGo N (acceptBatch N s cur) (b :: bs) (v + 1) := by
        simp [crawlGo, hlt']
      rw [hstep, hs']
      have harith : v + 1 + ((b :: bs).length - 1) = v + ((cur :: b :: bs).length - 1) := by
        simp only [List.length_cons]
        omega
      rw [harith]

/-! ## Claims C8, C9 -/

/-- A scripted Hacker News page: `n` records with distinct stringified
numeric identifiers starting at `lo`. -/
def hnPage (lo n : Nat) : List RawRecord :=
  (List.range n).map fun k => ⟨toString (lo + k), "t", "1 minute ago"⟩

/-- **C8 (counterexample).** With 80 unique records available across two
pages and target `N = 100` and no further next-page control, the run does
fail (`status = "FAIL"`), but the failure carries **no** kind at all: the
caught error is the next-page-control timeout, `validationResult` is still
`null`, and the only kinds the source can ever attach to a run are the
validation kinds `"PARSE_ERROR"` and `"SORT_VIOLATION"` — there is no
`InsufficientItems` kind in the report, contradicting the claim as
stated. -/
theorem claim_C8_counterexample :
    (runModel 100 [hnPage 0 40, hnPage 40 40]).status = "FAIL" ∧
    (runModel 100 [hnPage 0 40, hnPage 40 40]).detail = some RunError.noMoreLink ∧
    failKind (runModel 100 [hnPage 0 40, hnPage 40 40]) = none :=
  ⟨rfl, rfl, rfl⟩

/-- **C8 (amended).** For every run in which fewer than `N` unique items
are available across all pages and no next page exists at the end, the run
fails: the attempt to use the next-page control times out
(`RunError.noMoreLink`, modelling the `more.waitFor` timeout), the run
reports `status = "FAIL"` with exit code 1, and no validation verdict (so
no `PARSE_ERROR`/`SORT_VIOLATION` kind) is attached — the condition is
distinguishable from parse and ordering failures only through the error
itself, not through an `InsufficientItems` kind, which the code does not
have. -/
theorem claim_C8_insufficient_items_fails_without_kind (N : Nat)
    (pages : List (List RawRecord)) (hN : 0 < N) (hne : pages ≠ [])
    (hfew : (firstUnique [] pages.flatten).length < N) :
    runModel N pages =
      ⟨"FAIL", some RunError.noMoreLink, none, pages.length, 1⟩ := by
  have h0 : (AccState.mk [] []).collected.length < N := by simpa using hN
  have hfew' : (AccState.mk [] []).collected.length +
      (firstUnique (AccState.mk [] []).seen pages.flatten).length < N := by
    simpa using hfew
  obtain ⟨s', hs'⟩ := crawlGo_insufficient N pages ⟨[], []⟩ 1 hne h0 hfew'
  have hlen : 1 + (pages.length - 1) = pages.length := by
    cases pages with
    | nil => exact absurd rfl hne
    | cons a l =>
      simp only [List.length_cons]
      omega
  rw [hlen] at hs'
  simp [runModel, crawl, hN, hs']

theorem claim_C8_witness :
    runModel 2 [[⟨"a", "ta", "1 minute ago"⟩]] =
      ⟨"FAIL", some RunError.noMoreLink, none, 1, 1⟩ :=
  claim_C8_insufficient_items_fails_without_kind 2 [[⟨"a", "ta", "1 minute ago"⟩]]
    (by decide) (by decide) (by decide)

/-- **C9.** The pass path of the source sets `status = 'PASS'` and
`process.exitCode = 0` and then — when `ARTIFACTS === 'always'` — awaits
`writeArtifacts` with no guard, so a throwing artifact write reaches the
main `catch` block and flips `process.exitCode` to 1 even though
validation succeeded; likewise an unguarded `writeSummary` throw in
`finally` makes the process exit non-zero.  This contradicts the claim
(and the spec's best-effort rule): a reporting failure does change the
pass/fail determination.  The third conjunct shows the baseline without a
reporting failure. -/
theorem claim_C9_reporting_failure_changes_exit :
    finishRun true ⟨"always", true, false⟩ = ⟨"PASS", 1⟩ ∧
    finishRun true ⟨"on_fail", false, true⟩ = ⟨"PASS", 1⟩ ∧
    finishRun true ⟨"always", false, false⟩ = ⟨"PASS", 0⟩ :=
  ⟨rfl, rfl, rfl⟩

/-! ## Character-level lemmas for the age parser -/

lemma isWs_iff {c : Char} : isWs c = true ↔ c.toNat ∈ wsVals := by
  simp [isWs]

lemma lowAscii_of_isWs {c : Char} (h : isWs c = true) : lowAscii c = c := by
  have hm := isWs_iff.mp h
  have hrange : ¬ (65 ≤ c.toNat ∧ c.toNat ≤ 90) := by
    simp [wsVals] at hm
    omega
  simp [lowAscii, hrange]

lemma isWs_eq_false_of_lowAscii {c d : Char} (h : lowAscii c = d) (hd : isWs d = false) :
    isWs c = false := by
  cases hc : isWs c with
  | false => rfl
  | true =>
    rw [lowAscii_of_isWs hc] at h
    rw [h] at hc
    rw [hd] at hc
    exact Bool.noConfusion hc

lemma isWs_eq_false_of_isDigit {c : Char} (h : isDigitChar c = true) : isWs c = false := by
  cases hc : isWs c with
  | false => rfl
  | true =>
    have hm := isWs_iff.mp hc
    have hd : 48 ≤ c.toNat ∧ c.toNat ≤ 57 := by simpa [isDigitChar] using h
    simp [wsVals] at hm
    omega

lemma isDigit_eq_false_of_isWs {c : Char} (h : isWs c = true) : isDigitChar c = false := by
  cases hc : isDigitChar c with
  | false => rfl
  | true =>
    have hm := isWs_iff.mp h
    have hd : 48 ≤ c.toNat ∧ c.toNat ≤ 57 := by simpa [isDigitChar] using hc
    simp [wsVals] at hm
    omega

lemma takeWhile_dropWhile_append (p : α → Bool) :
    ∀ (xs : List α) (y : α) (ys : List α), (∀ x ∈ xs, p x = true) → p y = false →
      (xs ++ y :: ys).takeWhile p = xs ∧ (xs ++ y :: ys).dropWhile p = y :: ys := by
  intro xs
  induction xs with
  | nil =>
    intro y ys _ hy
    simp [List.takeWhile_cons, List.dropWhile_cons, hy]
  | cons x xs ih =>
    intro y ys hall hy
    have hx : p x = true := hall x (by simp)
    have hih := ih y ys (fun z hz => hall z (by simp [hz])) hy
    simp [List.takeWhile_cons, List.dropWhile_cons, hx, hih.1, hih.2]

lemma dropWhile_eq_self_of_head (p : α → Bool) (l : List α)
    (h : ∀ y ∈ l.take 1, p y = false) : l.dropWhile p = l := by
  cases l with
  | nil => rfl
  | cons y t =>
    have hy : p y = false := h y (by simp)
    simp [List.dropWhile_cons, hy]

lemma trimWs_eq_self (cs : List Char) (hhd : ∀ y ∈ cs.take 1, isWs y = false)
    (hlast : ∀ y ∈ cs.reverse.take 1, isWs y = false) : trimWs cs = cs := by
  rw [trimWs, dropWhile_eq_self_of_head isWs cs hhd,
    dropWhile_eq_self_of_head isWs cs.reverse hlast, List.reverse_reverse]

/-! ## Lemmas about `stripCI`, `matchUnit`, and `matchesAgo` -/

lemma stripCI_split : ∀ (uw w' r : List Char),
    stripCI (uw.map lowAscii ++ w') (uw ++ r) = stripCI w' r := by
  intro uw
  induction uw with
  | nil => intro w' r; rfl
  | cons c uw ih =>
    intro w' r
    simp only [List.map_cons, List.cons_append]
    simp [stripCI, ih]

lemma stripCI_exact (uw r : List Char) : stripCI (uw.map lowAscii) (uw ++ r) = some r := by
  have h := stripCI_split uw [] r
  simpa [stripCI] using h

lemma stripCI_first_ne {a : Char} {w : List Char} {c : Char} {cs : List Char}
    (h : lowAscii c ≠ a) : stripCI (a :: w) (c :: cs) = none := by
  simp [stripCI, h]

lemma stripCI_some : ∀ (w cs r : List Char), stripCI w cs = some r →
    ∃ uw, cs = uw ++ r ∧ uw.map lowAscii = w := by
  intro w
  induction w with
  | nil =>
    intro cs r h
    refine ⟨[], ?_, rfl⟩
    simpa [stripCI, eq_comm] using h
  | cons a w ih =>
    intro cs r h
    cases cs with
    | nil => simp [stripCI] at h
    | cons c cs =>
      by_cases hc : lowAscii c = a
      · simp only [stripCI, if_pos hc] at h
        obtain ⟨uw, hcs, hmap⟩ := ih cs r h
        exact ⟨c :: uw, by simp [hcs], by simp [hmap, hc]⟩
      · simp only [stripCI, if_neg hc] at h
        exact Option.noConfusion h

lemma matchesAgo_iff (cs : List Char) :
    matchesAgo cs = true ↔ cs.map lowAscii = "ago".data := by
  have hago : "ago".data = ['a', 'g', 'o'] := rfl
  rcases cs with _ | ⟨c1, _ | ⟨c2, _ | ⟨c3, _ | ⟨c4, t⟩⟩⟩⟩ <;>
    simp [matchesAgo, hago, and_assoc]

lemma stripCI_s_none (rest : List Char) (hrest : ∀ y ∈ rest.take 1, isWs y = true) :
    stripCI ['s'] rest = none := by
  cases rest with
  | nil => rfl
  | cons y t =>
    have hy : isWs y = true := hrest y (by simp)
    have hne : lowAscii y ≠ 's' := by
      rw [lowAscii_of_isWs hy]
      intro hcontra
      rw [hcontra] at hy
      exact absurd hy (by decide)
    exact stripCI_first_ne hne

/-- Soundness of the unit alternation: a case variant of a unit word,
followed by text that starts with whitespace (or is empty), is matched as
that unit with exactly the variant consumed.  Longest-first trying of the
spellings agrees with the regex's backtracking alternation because a
shorter spelling followed by whitespace can never extend to the longer
spelling. -/
lemma matchUnit_app (u : AgeUnit) (w : List Char) (hw : w ∈ unitWords u)
    (uw rest : List Char) (huw : uw.map lowAscii = w)
    (hrest : ∀ y ∈ rest.take 1, isWs y = true) :
    matchUnit (uw ++ rest) = some (u, rest) := by
  have hs := stripCI_s_none rest hrest
  cases u with
  | minutes =>
    simp only [unitWords, List.mem_cons, List.mem_singleton, List.not_mem_nil, or_false] at hw
    rcases hw with hw | hw
    · subst hw
      have h1 : stripCI "minutes".data (uw ++ rest) = none := by
        have hx := stripCI_split uw ['s'] rest
        rw [huw, hs] at hx
        exact hx
      have h2 : stripCI "minute".data (uw ++ rest) = some rest := by
        have hx := stripCI_exact uw rest
        rw [huw] at hx
        exact hx
      simp only [matchUnit, h1, h2]
    · subst hw
      have h1 : stripCI "minutes".data (uw ++ rest) = some rest := by
        have hx := stripCI_exact uw rest
        rw [huw] at hx
        exact hx
      simp only [matchUnit, h1]
  | hours =>
    simp only [unitWords, List.mem_cons, List.mem_singleton, List.not_mem_nil, or_false] at hw
    rcases hw with hw | hw
    · subst hw
      have huw2 : uw.map lowAscii = 'h' :: "our".data := huw
      obtain ⟨c, uw', rfl, hlc, hmap'⟩ := List.map_eq_cons_iff.mp huw2
      have hm1 : stripCI "minutes".data ((c :: uw') ++ rest) = none := by
        show stripCI ('m' :: "inutes".data) (c :: (uw' ++ rest)) = none
        exact stripCI_first_ne (by rw [hlc]; decide)
      have hm2 : stripCI "minute".data ((c :: uw') ++ rest) = none := by
        show stripCI ('m' :: "inute".data) (c :: (uw' ++ rest)) = none
        exact stripCI_first_ne (by rw [hlc]; decide)
      have h3 : stripCI "hours".data ((c :: uw') ++ rest) = none := by
        have hx := stripCI_split (c :: uw') ['s'] rest
        rw [huw, hs] at hx
        exact hx
      have h4 : stripCI "hour".data ((c :: uw') ++ rest) = some rest := by
        have hx := stripCI_exact (c :: uw') rest
        rw [huw] at hx
        exact hx
      simp only [matchUnit, hm1, hm2, h3, h4]
    · subst hw
      have huw2 : uw.map lowAscii = 'h' :: "ours".data := huw
      obtain ⟨c, uw', rfl, hlc, hmap'⟩ := List.map_eq_cons_iff.mp huw2
      have hm1 : stripCI "minutes".data ((c :: uw') ++ rest) = none := by
        show stripCI ('m' :: "inutes".data) (c :: (uw' ++ rest)) = none
        exact stripCI_first_ne (by rw [hlc]; decide)
      have hm2 : stripCI "minute".data ((c :: uw') ++ rest) = none := by
        show stripCI ('m' :: "inute".data) (c :: (uw' ++ rest)) = none
        exact stripCI_first_ne (by rw [hlc]; decide)
      have h3 : stripCI "hours".data ((c :: uw') ++ rest) = some rest := by
        have hx := stripCI_exact (c :: uw') rest
        rw [huw] at hx
        exact hx
      simp only [matchUnit, hm1, hm2, h3]
  | days =>
    simp only [unitWords, List.mem_cons, List.mem_singleton, List.not_mem_nil, or_false] at hw
    rcases hw with hw | hw
    · subst hw
      have huw2 : uw.map lowAscii = 'd' :: "ay".data := huw
      obtain ⟨c, uw', rfl, hlc, hmap'⟩ := List.map_eq_cons_iff.mp huw2
      have hm1 : stripCI "minutes".data ((c :: uw') ++ rest) = none := by
        show stripCI ('m' :: "inutes".data) (c :: (uw' ++ rest)) = none
        exact stripCI_first_ne (by rw [hlc]; decide)
      have hm2 : stripCI "minute".data ((c :: uw') ++ rest) = none := by
        show stripCI ('m' :: "inute".data) (c :: (uw' ++ rest)) = none
        exact stripCI_first_ne (by rw [hlc]; decide)
      have hm3 : stripCI "hours".data ((c :: uw') ++ rest) = none := by
        show stripCI ('h' :: "ours".data) (c :: (uw' ++ rest)) = none
        exact stripCI_first_ne (by rw [hlc]; decide)
      have hm4 : stripCI "hour".data ((c :: uw') ++ rest) = none := by
        show stripCI ('h' :: "our".data) (c :: (uw' ++ rest)) = none
        exact stripCI_first_ne (by rw [hlc]; decide)
      have h5 : stripCI "days".data ((c :: uw') ++ rest) = none := by
        have hx := stripCI_split (c :: uw') ['s'] rest
        rw [huw, hs] at hx
        exact hx
      have h6 : stripCI "day".data ((c :: uw') ++ rest) = some rest := by
        have hx := stripCI_exact (c :: uw') rest
        rw [huw] at hx
        exact hx
      simp only [matchUnit, hm1, hm2, hm3, hm4, h5, h6]
    · subst hw
      have huw2 : uw.map lowAscii = 'd' :: "ays".data := huw
      obtain ⟨c, uw', rfl, hlc, hmap'⟩ := List.map_eq_cons_iff.mp huw2
      have hm1 : stripCI "minutes".data ((c :: uw') ++ rest) = none := by
        show stripCI ('m' :: "inutes".data) (c :: (uw' ++ rest)) = none
        exact stripCI_first_ne (by rw [hlc]; decide)
      have hm2 : stripCI "minute".data ((c :: uw') ++ rest) = none := by
        show stripCI ('m' :: "inute".data) (c :: (uw' ++ rest)) = none
        exact stripCI_first_ne (by rw [hlc]; decide)
      have hm3 : stripCI "hours".data ((c :: uw') ++ rest) = none := by
        show stripCI ('h' :: "ours".data) (c :: (uw' ++ rest)) = none
        exact stripCI_first_ne (by rw [hlc]; decide)
      have hm4 : stripCI "hour".data ((c :: uw') ++ rest) = none := by
        show stripCI ('h' :: "our".data) (c :: (uw' ++ rest)) = none
        exact stripCI_first_ne (by rw [hlc]; decide)
      have h5 : stripCI "days".data ((c :: uw') ++ rest) = some rest := by
        have hx := stripCI_exact (c :: uw') rest
        rw [huw] at hx
        exact hx
      simp only [matchUnit, hm1, hm2, hm3, hm4, h5]

/-- Completeness of the unit alternation: a successful match consumed a
case variant of one of that unit's spellings. -/
lemma matchUnit_some {cs : List Char} {u : AgeUnit} {r : List Char}
    (h : matchUnit cs = some (u, r)) :
    ∃ uw w, w ∈ unitWords u ∧ uw.map lowAscii = w ∧ cs = uw ++ r := by
  simp only [matchUnit] at h
  cases h1 : stripCI "minutes".data cs with
  | some r1 =>
    rw [h1] at h
    simp only [Option.some.injEq, Prod.mk.injEq] at h
    obtain ⟨hu, hr⟩ := h
    obtain ⟨uw, hcs, hmap⟩ := stripCI_some _ _ _ h1
    subst hu hr
    exact ⟨uw, "minutes".data, by simp [unitWords], hmap, hcs⟩
  | none =>
    rw [h1] at h
    cases h2 : stripCI "minute".data cs with
    | some r2 =>
      rw [h2] at h
      simp only [Option.some.injEq, Prod.mk.injEq] at h
      obtain ⟨hu, hr⟩ := h
      obtain ⟨uw, hcs, hmap⟩ := stripCI_some _ _ _ h2
      subst hu hr
      exact ⟨uw, "minute".data, by simp [unitWords], hmap, hcs⟩
    | none =>
      rw [h2] at h
      cases h3 : stripCI "hours".data cs with
      | some r3 =>
        rw [h3] at h
        simp only [Option.some.injEq, Prod.mk.injEq] at h
        obtain ⟨hu, hr⟩ := h
        obtain ⟨uw, hcs, hmap⟩ := stripCI_some _ _ _ h3
        subst hu hr
        exact ⟨uw, "hours".data, by simp [unitWords], hmap, hcs⟩
      | none =>
        rw [h3] at h
        cases h4 : stripCI "hour".data cs with
        | some r4 =>
          rw [h4] at h
          simp only [Option.some.injEq, Prod.mk.injEq] at h
          obtain ⟨hu, hr⟩ := h
          obtain ⟨uw, hcs, hmap⟩ := stripCI_some _ _ _ h4
          subst hu hr
          exact ⟨uw, "hour".data, by simp [unitWords], hmap, hcs⟩
        | none =>
          rw [h4] at h
          cases h5 : stripCI "days".data cs with
          | some r5 =>
            rw [h5] at h
            simp only [Option.some.injEq, Prod.mk.injEq] at h
            obtain ⟨hu, hr⟩ := h
            obtain ⟨uw, hcs, hmap⟩ := stripCI_some _ _ _ h5
            subst hu hr
            exact ⟨uw, "days".data, by simp [unitWords], hmap, hcs⟩
          | none =>
            rw [h5] at h
            cases h6 : stripCI "day".data cs with
            | some r6 =>
              rw [h6] at h
              simp only [Option.some.injEq, Prod.mk.injEq] at h
              obtain ⟨hu, hr⟩ := h
              obtain ⟨uw, hcs, hmap⟩ := stripCI_some _ _ _ h6
              subst hu hr
              exact ⟨uw, "day".data, by simp [unitWords], hmap, hcs⟩
            | none =>
              rw [h6] at h
              exact Option.noConfusion h

lemma lowAscii_of_isDigit {c : Char} (h : isDigitChar c = true) : lowAscii c = c := by
  have hd : 48 ≤ c.toNat ∧ c.toNat ≤ 57 := by simpa [isDigitChar] using h
  have hrange : ¬ (65 ≤ c.toNat ∧ c.toNat ≤ 90) := by omega
  simp [lowAscii, hrange]

lemma isDigit_eq_false_of_lowAscii {c d : Char} (h : lowAscii c = d)
    (hd : isDigitChar d = false) : isDigitChar c = false := by
  cases hc : isDigitChar c with
  | false => rfl
  | true =>
    rw [lowAscii_of_isDigit hc] at h
    rw [h] at hc
    rw [hd] at hc
    exact Bool.noConfusion hc

/-- A case variant of a unit word is non-empty and starts with a character
that is neither whitespace nor a digit. -/
lemma unitWord_uw_shape (u : AgeUnit) (w : List Char) (hw : w ∈ unitWords u)
    (uw : List Char) (huw : uw.map lowAscii = w) :
    ∃ c uw', uw = c :: uw' ∧ isWs c = false ∧ isDigitChar c = false := by
  have hhead : ∃ a, w.head? = some a ∧ isWs a = false ∧ isDigitChar a = false := by
    cases u with
    | minutes =>
      simp only [unitWords, List.mem_cons, List.mem_singleton, List.not_mem_nil,
        or_false] at hw
      rcases hw with h | h <;> subst h <;> exact ⟨'m', by decide, by decide, by decide⟩
    | hours =>
      simp only [unitWords, List.mem_cons, List.mem_singleton, List.not_mem_nil,
        or_false] at hw
      rcases hw with h | h <;> subst h <;> exact ⟨'h', by decide, by decide, by decide⟩
    | days =>
      simp only [unitWords, List.mem_cons, List.mem_singleton, List.not_mem_nil,
        or_false] at hw
      rcases hw with h | h <;> subst h <;> exact ⟨'d', by decide, by decide, by decide⟩
  obtain ⟨a, ha_head, ha_ws, ha_dig⟩ := hhead
  cases uw with
  | nil =>
    rw [List.map_nil] at huw
    rw [← huw] at ha_head
    simp at ha_head
  | cons c uw' =>
    rw [List.map_cons] at huw
    have hhc : lowAscii c = a := by
      rw [← huw] at ha_head
      simpa using ha_head
    exact ⟨c, uw', rfl, isWs_eq_false_of_lowAscii hhc ha_ws,
      isDigit_eq_false_of_lowAscii hhc ha_dig⟩

/-- The case-variant of `ago` is exactly three characters, the last one a
variant of `o`. -/
lemma ago_shape (ag : List Char) (hag : ag.map lowAscii = "ago".data) :
    ∃ a1 a2 a3, ag = [a1, a2, a3] ∧ lowAscii a1 = 'a' ∧ lowAscii a2 = 'g' ∧
      lowAscii a3 = 'o' := by
  have hlen : ag.length = 3 := by
    have := congrArg List.length hag
    simpa using this
  rcases ag with _ | ⟨a1, _ | ⟨a2, _ | ⟨a3, _ | ⟨a4, t⟩⟩⟩⟩ <;> simp at hlen
  have hinj : [lowAscii a1, lowAscii a2, lowAscii a3] = ['a', 'g', 'o'] := hag
  simp only [List.cons.injEq, and_true] at hinj
  exact ⟨a1, a2, a3, rfl, hinj.1, hinj.2.1, hinj.2.2⟩

/-- Soundness of the age parser against the spec-side grammar: a string of
the recognized pattern parses to count × unit seconds. -/
theorem parseCore_of_grammarL (cs : List Char) (n : Nat) (u : AgeUnit)
    (h : specGrammarL cs n u) : parseCore cs = some (n * unitSeconds u) := by
  obtain ⟨ds, w1, uw, w2, ag, hcs, hds_ne, hds_dig, hval, hw1_ne, hw1_ws, huwE,
    hw2_ne, hw2_ws, hag⟩ := h
  obtain ⟨w, hw_mem, huw⟩ := huwE
  obtain ⟨c, uw', rfl, hc_ws, hc_dig⟩ := unitWord_uw_shape u w hw_mem uw huw
  obtain ⟨a1, a2, a3, rfl, ha1, ha2, ha3⟩ := ago_shape ag hag
  cases w1 with
  | nil => exact absurd rfl hw1_ne
  | cons y1 w1' =>
  cases w2 with
  | nil => exact absurd rfl hw2_ne
  | cons y2 w2' =>
  subst hcs
  have hy1 : isWs y1 = true := hw1_ws y1 (by simp)
  have hy2 : isWs y2 = true := hw2_ws y2 (by simp)
  have hA := takeWhile_dropWhile_append isDigitChar ds y1
    (w1' ++ (c :: (uw' ++ (y2 :: (w2' ++ [a1, a2, a3]))))) hds_dig
    (isDigit_eq_false_of_isWs hy1)
  have hB := takeWhile_dropWhile_append isWs (y1 :: w1') c
    (uw' ++ (y2 :: (w2' ++ [a1, a2, a3])))
    (fun z hz => hw1_ws z hz) hc_ws
  have hC := matchUnit_app u w hw_mem (c :: uw') (y2 :: (w2' ++ [a1, a2, a3])) huw
    (by intro y hy; simp at hy; rw [hy]; exact hy2)
  have hD := takeWhile_dropWhile_append isWs (y2 :: w2') a1 [a2, a3]
    (fun z hz => hw2_ws z hz) (isWs_eq_false_of_lowAscii ha1 (by decide))
  have hE : matchesAgo [a1, a2, a3] = true := by
    rw [matchesAgo_iff]
    exact hag
  have hdsE : ds.isEmpty = false := by
    cases ds with
    | nil => exact absurd rfl hds_ne
    | cons _ _ => rfl
  simp only [List.cons_append, List.append_assoc] at hA hB hC hD ⊢
  simp only [parseCore, hA.1, hA.2, hB.1, hB.2, hC, hD.1, hD.2, hE, hdsE,
    List.isEmpty_cons, if_true, if_false, Bool.false_eq_true, ite_false, ite_true]
  rw [hval]

/-- Completeness of the age parser against the spec-side grammar: a
successful parse exhibits a decomposition into the recognized pattern. -/
theorem grammarL_of_parseCore (cs : List Char) (v : Nat) (h : parseCore cs = some v) :
    ∃ n u, specGrammarL cs n u ∧ v = n * unitSeconds u := by
  simp only [parseCore] at h
  by_cases hE1 : (cs.takeWhile isDigitChar).isEmpty
  · rw [if_pos hE1] at h
    exact Option.noConfusion h
  · rw [if_neg hE1] at h
    by_cases hE2 : ((cs.dropWhile isDigitChar).takeWhile isWs).isEmpty
    · rw [if_pos hE2] at h
      exact Option.noConfusion h
    · rw [if_neg hE2] at h
      cases hmu : matchUnit ((cs.dropWhile isDigitChar).dropWhile isWs) with
      | none =>
        rw [hmu] at h
        exact Option.noConfusion h
      | some pr =>
        obtain ⟨u, r3⟩ := pr
        rw [hmu] at h
        dsimp only [] at h
        by_cases hE3 : (r3.takeWhile isWs).isEmpty
        · rw [if_pos hE3] at h
          exact Option.noConfusion h
        · rw [if_neg hE3] at h
          by_cases hAgo : matchesAgo (r3.dropWhile isWs) = true
          · rw [if_pos hAgo] at h
            obtain ⟨uw, w, hw_mem, hmap, hr2⟩ := matchUnit_some hmu
            have h3 : r3 = r3.takeWhile isWs ++ r3.dropWhile isWs :=
              (List.takeWhile_append_dropWhile _ _).symm
            have h2 : cs.dropWhile isDigitChar =
                (cs.dropWhile isDigitChar).takeWhile isWs ++
                  (uw ++ (r3.takeWhile isWs ++ r3.dropWhile isWs)) := by
              conv_lhs => rw [← List.takeWhile_append_dropWhile isWs
                (cs.dropWhile isDigitChar)]
              rw [hr2]
              conv_lhs => rw [h3]
            have hfull : cs = cs.takeWhile isDigitChar ++
                ((cs.dropWhile isDigitChar).takeWhile isWs ++
                  (uw ++ (r3.takeWhile isWs ++ r3.dropWhile isWs))) := by
              conv_lhs => rw [← List.takeWhile_append_dropWhile isDigitChar cs, h2]
            refine ⟨digitsToNat (cs.takeWhile isDigitChar), u, ?_, (Option.some.inj h).symm⟩
            refine ⟨cs.takeWhile isDigitChar, (cs.dropWhile isDigitChar).takeWhile isWs,
              uw, r3.takeWhile isWs, r3.dropWhile isWs, hfull, ?_, ?_, rfl, ?_, ?_,
              ⟨w, hw_mem, hmap⟩, ?_, ?_, ?_⟩
            · intro hnil
              rw [hnil] at hE1
              exact hE1 rfl
            · intro x hx
              exact List.mem_takeWhile_imp hx
            · intro hnil
              rw [hnil] at hE2
              exact hE2 rfl
            · intro x hx
              exact List.mem_takeWhile_imp hx
            · intro hnil
              rw [hnil] at hE3
              exact hE3 rfl
            · intro x hx
              exact List.mem_takeWhile_imp hx
            · exact (matchesAgo_iff _).mp hAgo
          · rw [if_neg hAgo] at h
            exact Option.noConfusion h

/-! ## Claims C4, C5 -/

/-- A string of the recognized grammar is unchanged by trimming: it starts
with a digit and ends with a case variant of `o`. -/
lemma specGrammar_trim_eq (s : String) (n : Nat) (u : AgeUnit)
    (h : specGrammar s n u) : trimWs s.data = s.data := by
  obtain ⟨ds, w1, uw, w2, ag, hcs, hds_ne, hds_dig, hval, hw1_ne, hw1_ws, huwE,
    hw2_ne, hw2_ws, hag⟩ := h
  obtain ⟨a1, a2, a3, hag_eq, ha1, ha2, ha3⟩ := ago_shape ag hag
  apply trimWs_eq_self
  · intro y hy
    cases ds with
    | nil => exact absurd rfl hds_ne
    | cons d ds' =>
      rw [hcs] at hy
      have hy' : y = d := by simpa using hy
      rw [hy']
      exact isWs_eq_false_of_isDigit (hds_dig d (by simp))
  · intro y hy
    have hU : s.data = (ds ++ (w1 ++ (uw ++ (w2 ++ [a1, a2])))) ++ [a3] := by
      rw [hcs, hag_eq]
      simp [List.append_assoc]
    rw [hU] at hy
    have hy' : y = a3 := by simpa using hy
    rw [hy']
    exact isWs_eq_false_of_lowAscii ha3 (by decide)

/-- Soundness of the double-faithful parser against the grammar: a string
of the recognized pattern parses to the unit chain applied, in double
arithmetic, to the rounded count. -/
theorem parseCoreJs_of_grammarL (cs : List Char) (n : Nat) (u : AgeUnit)
    (h : specGrammarL cs n u) :
    parseCoreJs cs = some (jsUnitValue u (roundDouble n)) := by
  obtain ⟨ds, w1, uw, w2, ag, hcs, hds_ne, hds_dig, hval, hw1_ne, hw1_ws, huwE,
    hw2_ne, hw2_ws, hag⟩ := h
  obtain ⟨w, hw_mem, huw⟩ := huwE
  obtain ⟨c, uw', rfl, hc_ws, hc_dig⟩ := unitWord_uw_shape u w hw_mem uw huw
  obtain ⟨a1, a2, a3, rfl, ha1, ha2, ha3⟩ := ago_shape ag hag
  cases w1 with
  | nil => exact absurd rfl hw1_ne
  | cons y1 w1' =>
  cases w2 with
  | nil => exact absurd rfl hw2_ne
  | cons y2 w2' =>
  subst hcs
  have hy1 : isWs y1 = true := hw1_ws y1 (by simp)
  have hy2 : isWs y2 = true := hw2_ws y2 (by simp)
  have hA := takeWhile_dropWhile_append isDigitChar ds y1
    (w1' ++ (c :: (uw' ++ (y2 :: (w2' ++ [a1, a2, a3]))))) hds_dig
    (isDigit_eq_false_of_isWs hy1)
  have hB := takeWhile_dropWhile_append isWs (y1 :: w1') c
    (uw' ++ (y2 :: (w2' ++ [a1, a2, a3])))
    (fun z hz => hw1_ws z hz) hc_ws
  have hC := matchUnit_app u w hw_mem (c :: uw') (y2 :: (w2' ++ [a1, a2, a3])) huw
    (by intro y hy; simp at hy; rw [hy]; exact hy2)
  have hD := takeWhile_dropWhile_append isWs (y2 :: w2') a1 [a2, a3]
    (fun z hz => hw2_ws z hz) (isWs_eq_false_of_lowAscii ha1 (by decide))
  have hE : matchesAgo [a1, a2, a3] = true := by
    rw [matchesAgo_iff]
    exact hag
  have hdsE : ds.isEmpty = false := by
    cases ds with
    | nil => exact absurd rfl hds_ne
    | cons _ _ => rfl
  simp only [List.cons_append, List.append_assoc] at hA hB hC hD ⊢
  simp only [parseCoreJs, hA.1, hA.2, hB.1, hB.2, hC, hD.1, hD.2, hE, hdsE,
    List.isEmpty_cons, if_true, if_false, Bool.false_eq_true, ite_false, ite_true]
  rw [hval]

lemma roundDouble_of_le {x : Nat} (h : x ≤ 2 ^ 53) : roundDouble x = .finite x := by
  unfold roundDouble
  rw [if_pos h]

lemma jsMul_finite {a : Nat} (b : Nat) (h : a * b ≤ 2 ^ 53) :
    jsMul (.finite a) b = .finite (a * b) := by
  simp [jsMul, roundDouble_of_le h]

/-- Within the double-exact integer range, the source's unit-conversion
chain computes the exact product. -/
lemma jsUnitValue_exact (u : AgeUnit) (n : Nat) (h : n * unitSeconds u ≤ 2 ^ 53) :
    jsUnitValue u (roundDouble n) = .finite (n * unitSeconds u) := by
  have hpow : (2 : Nat) ^ 53 = 9007199254740992 := by norm_num
  cases u with
  | minutes =>
    have h' : n * 60 ≤ 9007199254740992 := by
      rw [← hpow]
      simpa [unitSeconds] using h
    simp only [jsUnitValue]
    rw [roundDouble_of_le (by rw [hpow]; omega), jsMul_finite 60 (by rw [hpow]; omega)]
    simp [unitSeconds]
  | hours =>
    have h' : n * 3600 ≤ 9007199254740992 := by
      rw [← hpow]
      simpa [unitSeconds] using h
    have e60 : n * 60 * 60 = n * 3600 := by ring
    simp only [jsUnitValue]
    rw [roundDouble_of_le (by rw [hpow]; omega),
      jsMul_finite 60 (by rw [hpow]; omega),
      jsMul_finite 60 (by rw [hpow, e60]; omega)]
    rw [e60]
    simp [unitSeconds]
  | days =>
    have h' : n * 86400 ≤ 9007199254740992 := by
      rw [← hpow]
      simpa [unitSeconds] using h
    have e24 : n * 24 * 60 = n * 1440 := by ring
    have e86 : n * 24 * 60 * 60 = n * 86400 := by ring
    simp only [jsUnitValue]
    rw [roundDouble_of_le (by rw [hpow]; omega),
      jsMul_finite 24 (by rw [hpow]; omega),
      jsMul_finite 60 (by rw [hpow, e24]; omega),
      jsMul_finite 60 (by rw [hpow, e86]; omega)]
    rw [e86]
    simp [unitSeconds]

set_option maxRecDepth 1000000 in
/-- **C4 (counterexample).** The claim asserts that *every* grammar string
parses to exactly count × unit seconds, but the program computes
`Number(m[1])` and the unit product in IEEE-754 doubles, which round above
`2 ^ 53`: at the in-grammar input `"9007199254740993 minutes ago"` the
program rounds the count `2 ^ 53 + 1` to `2 ^ 53` and returns
540431955284459520, not the exact 9007199254740993 × 60 =
540431955284459580 (which is what the idealized exact-arithmetic parser
yields). -/
theorem claim_C4_counterexample :
    specGrammar "9007199254740993 minutes ago" 9007199254740993 AgeUnit.minutes ∧
    parseAgeToSecondsJs "9007199254740993 minutes ago" =
      some (.finite 540431955284459520) ∧
    ¬ parseAgeToSecondsJs "9007199254740993 minutes ago" =
        some (.finite (9007199254740993 * unitSeconds AgeUnit.minutes)) ∧
    parseAgeToSeconds "9007199254740993 minutes ago" = some 540431955284459580 := by
  refine ⟨?_, by decide, by decide, by decide⟩
  exact ⟨"9007199254740993".data, [' '], "minutes".data, [' '], "ago".data,
    by decide, by decide, by decide, by decide, by decide, by decide,
    ⟨"minutes".data, by decide, by decide⟩, by decide, by decide, by decide⟩

/-- **C4 (amended).** For every string of the recognized grammar — an
integer count, one or more whitespace, a unit word (minute/minutes,
hour/hours, day/days, case-insensitive), one or more whitespace, then the
literal `ago` (case-insensitive) — whose count × unit-seconds product does
not exceed `2 ^ 53` (the double-exact integer range), the program returns
exactly count × unit seconds (minutes ×60, hours ×3600, days ×86400): all
intermediate double operations are exact there, so the double-faithful
parser and the idealized exact-arithmetic parser agree.  Beyond that range
the doubles round (and enormous counts overflow to `Infinity`). -/
theorem claim_C4_exact_within_double_range (s : String) (n : Nat) (u : AgeUnit)
    (h : specGrammar s n u) (hrange : n * unitSeconds u ≤ 2 ^ 53) :
    parseAgeToSecondsJs s = some (.finite (n * unitSeconds u)) ∧
    parseAgeToSeconds s = some (n * unitSeconds u) := by
  have htrim := specGrammar_trim_eq s n u h
  constructor
  · show parseCoreJs (trimWs s.data) = _
    rw [htrim, parseCoreJs_of_grammarL s.data n u h, jsUnitValue_exact u n hrange]
  · show parseCore (trimWs s.data) = _
    rw [htrim]
    exact parseCore_of_grammarL s.data n u h

theorem claim_C4_witness :
    specGrammar "3 minutes ago" 3 AgeUnit.minutes ∧
    3 * unitSeconds AgeUnit.minutes ≤ 2 ^ 53 ∧
    parseAgeToSecondsJs "3 minutes ago" = some (.finite 180) ∧
    parseAgeToSeconds "3 minutes ago" = some 180 := by
  have hg : specGrammar "3 minutes ago" 3 AgeUnit.minutes :=
    ⟨['3'], [' '], "minutes".data, [' '], "ago".data, by decide, by decide,
      by decide, by decide, by decide, by decide,
      ⟨"minutes".data, by decide, by decide⟩, by decide, by decide, by decide⟩
  have h := claim_C4_exact_within_double_range "3 minutes ago" 3 AgeUnit.minutes hg
    (by norm_num [unitSeconds])
  exact ⟨hg, by norm_num [unitSeconds], h.1, h.2⟩

/-- **C5 (counterexample).** The claim quantifies over every string outside
the recognized grammar.  `" 1 minute ago"` (leading whitespace) is outside
the grammar as stated — it does not begin with an integer count — yet the
parser trims the input first and returns 60, not the unparseable result.
(The grammar membership fails because any decomposition would have to
start with a non-empty digit string, but the first character is a space.) -/
theorem claim_C5_counterexample :
    parseAgeToSeconds " 1 minute ago" = some 60 ∧
    ¬ ∃ n u, specGrammar " 1 minute ago" n u := by
  refine ⟨by decide, ?_⟩
  rintro ⟨n, u, ds, w1, uw, w2, ag, hcs, hds_ne, hds_dig, -, -, -, -, -, -, -⟩
  cases ds with
  | nil => exact hds_ne rfl
  | cons d ds' =>
    have hhead := congrArg List.head? hcs
    have hL : (" 1 minute ago".data).head? = some ' ' := by decide
    have hR : ((d :: ds') ++ (w1 ++ (uw ++ (w2 ++ ag)))).head? = some d := rfl
    rw [hL, hR] at hhead
    have hd : d = ' ' := (Option.some.inj hhead).symm
    have hdig := hds_dig d (by simp)
    rw [hd] at hdig
    exact absurd hdig (by decide)

/-- **C5 (amended).** For every string that is outside the recognized
grammar *after trimming leading and trailing whitespace* (this covers the
empty string, `"yesterday"`, `"5 weeks ago"`, and `"minute ago"`), the
parser returns the unparseable result `none` — it is a total function, so
it never throws and never substitutes a default. -/
theorem claim_C5_unparseable_outside_grammar (s : String)
    (h : ¬ ∃ n u, specGrammarL (trimWs s.data) n u) : parseAgeToSeconds s = none := by
  cases hp : parseAgeToSeconds s with
  | none => rfl
  | some v =>
    exfalso
    apply h
    have hp' : parseCore (trimWs s.data) = some v := hp
    obtain ⟨n, u, hg, _⟩ := grammarL_of_parseCore (trimWs s.data) v hp'
    exact ⟨n, u, hg⟩

theorem claim_C5_witness : parseAgeToSeconds "yesterday" = none :=
  claim_C5_unparseable_outside_grammar "yesterday"
    (fun ⟨n, u, hg⟩ => by
      have h1 := parseCore_of_grammarL (trimWs "yesterday".data) n u hg
      have h2 : parseCore (trimWs "yesterday".data) = none := by decide
      rw [h2] at h1
      exact Option.noConfusion h1)


